import Mathlib

/-!
Verification of the factor evaluation and portfolio-construction engine.

The embedding models the pandas/numpy code of
`factors/base_factor.py` (construct_portfolios, test_factor,
evaluate_portfolio, analyze_calculate_construct) and
`strategy/base_strategy.py` (calculate_factor_scores,
calculate_performance).

Modelling conventions:
* dates are naturals, tickers are strings, numeric cells are exact
  rationals (`ℚ`);
* a pandas `NaN` cell is `Option.none`; `dropna`, `fillna(0)` and
  skip-NaN sums/mins are modelled explicitly on `Option`;
* a DataFrame is its index (date list, in index order), its column
  list (in column order) and a cell function;
* float division `0/0` (which pandas turns into `NaN`) is modelled as
  `none`.  With the non-negative capitalizations of the data model a
  zero denominator forces a zero numerator, so `x/0` with `x ≠ 0`
  (which would be `±inf`) does not arise in the modelled branches;
* quantities that the code sends through `np.sqrt` or a fractional
  power (`**`) are modelled in `ℝ` with `Real.sqrt` / `Real.rpow`;
  everything before those steps stays rational and executable;
* a Python exception is modelled with `Except String`; the only
  exception reachable in `construct_portfolios` is the
  `ZeroDivisionError` from `len(sorted_stocks) // n_groups` when
  `n_groups = 0` and from `1.0/len(group)` when a group is empty.
-/

namespace FactorModel

abbrev Date := Nat
abbrev Ticker := String

/-- A pandas DataFrame: row index `dates` (in index order), column
labels `tickers` (in column order), and `val d t` the cell at row `d`,
column `t` (`none` = `NaN` or absent). -/
structure DF where
  dates : List Date
  tickers : List Ticker
  val : Date → Ticker → Option ℚ

/-- A pandas Series indexed by dates. -/
structure SeriesQ where
  dates : List Date
  val : Date → Option ℚ

/-! ### Return calculator

`analyze_calculate_construct` builds each asset's return column as
`df['adjusted_close'].pct_change().fillna(0)`: the first element (the
`NaN` that `pct_change` puts at position 0) becomes `0.0` and every
later element is `price[i]/price[i-1] - 1`.  The model divides in `ℚ`,
which agrees with the float computation whenever prices are nonzero
(real price data is positive). -/

def pctAux : ℚ → List ℚ → List ℚ
  | _, [] => []
  | prev, q :: rest => (q / prev - 1) :: pctAux q rest

/-- `pct_change().fillna(0)` on a price column. -/
def pctReturns : List ℚ → List ℚ
  | [] => []
  | p :: rest => 0 :: pctAux p rest

/-! ### Portfolio constructor (`construct_portfolios`) -/

/-- Stable insertion step for a descending sort by factor value
(`sort_values(ascending=False)`): among equal values the earlier
column keeps its earlier position. -/
def insertDesc (x : Ticker × ℚ) : List (Ticker × ℚ) → List (Ticker × ℚ)
  | [] => [x]
  | y :: ys => if y.2 < x.2 then x :: y :: ys else y :: insertDesc x ys

/-- Stable descending sort of a factor cross-section. -/
def sortDesc (l : List (Ticker × ℚ)) : List (Ticker × ℚ) :=
  l.foldr insertDesc []

/-- `factor_df.loc[pd].dropna()`: the (ticker, value) pairs present in
row `pd`, in column order. -/
def factorRow (F : DF) (pd : Date) : List (Ticker × ℚ) :=
  F.tickers.filterMap (fun t => (F.val pd t).map (fun v => (t, v)))

/-- `prev_dates = factor_df.index[factor_df.index < date]` followed by
`prev_dates[-1]`: the last index entry (in index order) strictly below
`d`. -/
def latestPrior (F : DF) (d : Date) : Option Date :=
  (F.dates.filter (fun x => x < d)).getLast?

/-- Sum of the market caps present for the group at `prev`
(`group_mcap.dropna().sum()`, a skip-NaN sum). -/
def capTotal (M : DF) (prev : Date) (g : List Ticker) : ℚ :=
  (g.filterMap (fun t => M.val prev t)).sum

/-- Weights of one group, as a partial (NaN-aware) map on tickers.
Mirrors the source: if `prev_date` is a market-cap row and at least
one member's cap is present, each weight is `cap / cap_total`
(members with a missing cap have no weight, i.e. `NaN` after
alignment; when `cap_total = 0` the float division `0/0` is `NaN`,
modelled as `none`); otherwise every member's weight is the scalar
`1.0 / len(group)`. -/
def groupWeights (M : DF) (prev : Date) (g : List Ticker) : Ticker → Option ℚ :=
  if prev ∈ M.dates then
    if (g.filter (fun t => (M.val prev t).isSome)).isEmpty then
      fun t => if t ∈ g then some (1 / (g.length : ℚ)) else none
    else
      fun t => (M.val prev t).bind
        (fun v => if capTotal M prev g = 0 then none else some (v / capTotal M prev g))
  else
    fun t => if t ∈ g then some (1 / (g.length : ℚ)) else none

/-- `(returns_df.loc[date, group] * weights).sum()`: pandas aligns the
two series and the skip-NaN sum drops every pair where either the
weight or the return is `NaN`. -/
def weightedReturn (R : DF) (d : Date) (g : List Ticker) (w : Ticker → Option ℚ) : ℚ :=
  (g.map (fun t =>
    match w t, R.val d t with
    | some wv, some rv => wv * rv
    | _, _ => 0)).sum

/-- One iteration of the date loop in `construct_portfolios`:
`ok none` = the date is skipped (`continue`), `ok (some (h, l, s))` =
the high/low/spread returns stored for the date, `error` = the Python
exception raised on that date.  The `ZeroDivisionError` sites are
`len(sorted_stocks) // n_groups` (when `n_groups = 0`) and
`1.0/len(group)` (when a group is empty, which happens exactly when
the ranked cross-section is empty). -/
def processDate (F R M : DF) (n : ℤ) (d : Date) : Except String (Option (ℚ × ℚ × ℚ)) :=
  if d ∉ F.dates ∨ R.dates.head? = some d then .ok none
  else
    match latestPrior F d with
    | none => .ok none
    | some prev =>
      let fvals := factorRow F prev
      if (fvals.length : ℤ) < n then .ok none
      else
        let sorted := sortDesc fvals
        if n = 0 then .error "ZeroDivisionError"
        else
          let gs := (max 1 (Int.fdiv (sorted.length : ℤ) n)).toNat
          let high := (sorted.take gs).map Prod.fst
          let low := (sorted.drop (sorted.length - gs)).map Prod.fst
          if high.isEmpty ∨ low.isEmpty then .error "ZeroDivisionError"
          else
            let hr := weightedReturn R d high (groupWeights M prev high)
            let lr := weightedReturn R d low (groupWeights M prev low)
            .ok (some (hr, lr, hr - lr))

/-- `true` iff the date is actually computed from the ranked groups
(not skipped, no exception). -/
def processedOn (F R M : DF) (n : ℤ) (d : Date) : Bool :=
  match processDate F R M n d with
  | .ok (some _) => true
  | _ => false

/-- `construct_portfolios`: iterate the date loop over the full return
index; a skipped date's row stays `NaN` and the final `fillna(0)`
turns it into zeros for all three columns; a raised exception aborts
the whole call. -/
def construct_portfolios (F R M : DF) (n : ℤ) :
    Except String (List (Date × ℚ × ℚ × ℚ)) :=
  R.dates.mapM (fun d =>
    (processDate F R M n d).map (fun o =>
      match o with
      | some (h, l, s) => (d, h, l, s)
      | none => (d, 0, 0, 0)))

/-! ### Significance tester (`test_factor`) -/

/-- The dates on which a ticker's return and the factor-spread return
are both present: `stock_returns.dropna()` intersected (via `.loc` and
a second `dropna`) with the non-`NaN` dates of `factor_returns`. -/
def alignedDates (R : DF) (f : SeriesQ) (t : Ticker) : List Date :=
  (R.dates.filter (fun d => (R.val d t).isSome)).filter (fun d => (f.val d).isSome)

/-- Per-asset regression record.  `statsmodels` additionally reports a
t-statistic, p-value and confidence bounds; those need `sqrt` and the
Student-t CDF and are not referenced by any claim, so the model keeps
the closed-form OLS quantities that are exact in `ℚ`. -/
structure RegResult where
  alpha : ℚ
  beta : ℚ
  rsquared : ℚ
  deriving DecidableEq, Repr

/-- Closed-form OLS of `y` on `[const, x]` over the aligned sample
`xy = [(x, y), ...]`.  (A singular design would make `statsmodels`
fall back to a pseudo-inverse; the model returns 0 there — no claim
touches that case.) -/
def olsFit (xy : List (ℚ × ℚ)) : RegResult :=
  let n : ℚ := xy.length
  let sx := (xy.map Prod.fst).sum
  let sy := (xy.map Prod.snd).sum
  let sxx := (xy.map (fun p => p.1 * p.1)).sum
  let sxy := (xy.map (fun p => p.1 * p.2)).sum
  let denom := n * sxx - sx * sx
  let beta := if denom = 0 then 0 else (n * sxy - sx * sy) / denom
  let alpha := if n = 0 then 0 else (sy - beta * sx) / n
  let sst := (xy.map (fun p => (p.2 - sy / n) ^ 2)).sum
  let ssr := (xy.map (fun p => (p.2 - (alpha + beta * p.1)) ^ 2)).sum
  { alpha := alpha
    beta := beta
    rsquared := if sst = 0 then 0 else 1 - ssr / sst }

/-- `test_factor`: for each return column, align with the spread
series, `continue` (omit the ticker) when fewer than 30 aligned
points, otherwise store the OLS record. -/
def test_factor (R : DF) (f : SeriesQ) : List (Ticker × RegResult) :=
  R.tickers.filterMap (fun t =>
    let a := alignedDates R f t
    if a.length < 30 then none
    else some (t, olsFit (a.map (fun d => ((f.val d).getD 0, (R.val d t).getD 0)))))

/-! ### Performance evaluator (`evaluate_portfolio`) -/

def cumAux : ℚ → List ℚ → List ℚ
  | _, [] => []
  | acc, x :: rest => (acc * (1 + x)) :: cumAux (acc * (1 + x)) rest

/-- `(1 + portfolio_returns).cumprod()`. -/
def cumReturns (r : List ℚ) : List ℚ := cumAux 1 r

def runMaxAux : ℚ → List ℚ → List ℚ
  | _, [] => []
  | m, x :: rest => max m x :: runMaxAux (max m x) rest

/-- `cum_returns.cummax()`. -/
def runningMax : List ℚ → List ℚ
  | [] => []
  | x :: rest => x :: runMaxAux x rest

/-- `(cum_returns / running_max) - 1` elementwise.  The division is
`0/0` (float `NaN`, modelled `none`) exactly when the running max is
zero: a zero running max forces the current cumulative value to be
zero as well, since the running max bounds it from above and a zero
cumulative value only arises after a `1 + r = 0` step zeroes out every
later product. -/
def drawdownList (r : List ℚ) : List (Option ℚ) :=
  List.zipWith (fun c m => if m = 0 then none else some (c / m - 1))
    (cumReturns r) (runningMax (cumReturns r))

/-- pandas `Series.min()`: skip-NaN minimum, `NaN` (here `none`) when
no non-`NaN` entry exists. -/
def skipnaMin (l : List (Option ℚ)) : Option ℚ :=
  (l.filterMap id).foldl
    (fun acc x =>
      match acc with
      | none => some x
      | some m => some (min m x)) none

/-- `drawdown.min()` for one return column. -/
def maxDrawdown (r : List ℚ) : Option ℚ := skipnaMin (drawdownList r)

/-- pandas `Series.std()` squared: the `ddof = 1` sample variance.
With at most one observation pandas yields `NaN`; downstream the only
use is the comparison `volatility > 0`, which is `False` for `NaN`
just as for `0`, so the model returns the junk value 0 there. -/
def sampleVar (l : List ℚ) : ℚ :=
  if l.length ≤ 1 then 0
  else
    let n : ℚ := l.length
    let m := l.sum / n
    (l.map (fun x => (x - m) ^ 2)).sum / (n - 1)

/-- `returns.std() * np.sqrt(252)` — identical formula at
`base_factor.evaluate_portfolio` and at
`base_strategy.calculate_performance`. -/
noncomputable def annVol (r : List ℚ) : ℝ :=
  Real.sqrt ((sampleVar r : ℚ) : ℝ) * Real.sqrt 252

/-- `evaluate_portfolio`'s annualized return of one column:
`cum.iloc[-1] ** (1/years) - 1` when the final cumulative value is
positive, else the sentinel `-1`; `years = len/252`.  (On an empty
column the source would raise `IndexError` at `iloc[-1]`; the model is
used for nonempty columns.) -/
noncomputable def annReturn (r : List ℚ) : ℝ :=
  let last := ((cumReturns r).getLast?).getD 1
  if 0 < last then ((last : ℝ)) ^ ((252 : ℝ) / (r.length : ℝ)) - 1 else -1

/-- `evaluate_portfolio`'s Sharpe ratio:
`(annualized_return - 0.02) / volatility if volatility > 0 else 0`. -/
noncomputable def sharpeOf (r : List ℚ) : ℝ :=
  if 0 < annVol r then (annReturn r - 0.02) / annVol r else 0

/-- `calculate_performance`'s annualized return:
`(1 + total_return) ** (252/len) - 1` with
`total_return = (1 + returns).prod() - 1` (no positivity guard in the
source; no claim exercises a non-positive base). -/
noncomputable def stratAnnReturn (r : List ℚ) : ℝ :=
  (((r.map (fun x => 1 + x)).prod : ℚ) : ℝ) ^ ((252 : ℝ) / (r.length : ℝ)) - 1

/-- `calculate_performance`'s Sharpe ratio:
`annualized_return / volatility if volatility > 0 else 0` — note: no
risk-free-rate subtraction in the strategy path. -/
noncomputable def stratSharpeOf (r : List ℚ) : ℝ :=
  if 0 < annVol r then stratAnnReturn r / annVol r else 0

/-! ### Factor score aggregator (`calculate_factor_scores`) -/

/-- One date's per-factor cross sections: the processed factor names
(the keys of `factor_values`, in iteration order), the ticker index,
and the value cells (`none` = ticker missing from that factor's query
result, a `NaN` in the DataFrame). -/
structure CrossSection where
  factors : List String
  tickers : List Ticker
  val : String → Ticker → Option ℚ

/-- The non-`NaN` entries of one factor column, in index order. -/
def colValues (cs : CrossSection) (f : String) : List ℚ :=
  cs.tickers.filterMap (fun t => cs.val f t)

/-- `df[factor].mean()` (skip-NaN). -/
def colMean (cs : CrossSection) (f : String) : ℚ :=
  (colValues cs f).sum / ((colValues cs f).length : ℚ)

/-- `df[factor].std()` (skip-NaN, `ddof = 1`). -/
noncomputable def colStd (cs : CrossSection) (f : String) : ℝ :=
  Real.sqrt ((sampleVar (colValues cs f) : ℚ) : ℝ)

/-- One factor's z-score column: `(value - mean)/std` when `std > 0`,
otherwise the scalar 0 assigned to the whole column (so every ticker,
even one with a `NaN` value, gets z-score 0 in that branch). -/
noncomputable def zscoreOf (cs : CrossSection) (f : String) (t : Ticker) : Option ℝ :=
  if 0 < colStd cs f then
    (cs.val f t).map (fun v => (((v : ℚ) : ℝ) - ((colMean cs f : ℚ) : ℝ)) / colStd cs f)
  else some 0

/-- The accumulation loop
`for f in z_scores.columns: if f in factor_weights:
factor_score += z_scores[f] * weight` starting from the zero series;
a `NaN` z-score poisons the running sum, as `+` does in pandas. -/
noncomputable def compositeScore (cs : CrossSection) (w : List (String × ℚ)) (t : Ticker) :
    Option ℝ :=
  cs.factors.foldl
    (fun acc f =>
      match w.lookup f with
      | some wt => acc.bind (fun a => (zscoreOf cs f t).map (fun z => a + z * ((wt : ℚ) : ℝ)))
      | none => acc)
    (some 0)

/-- `ddof = 1` sample variance over reals, for the composite series. -/
noncomputable def sampleVarR (l : List ℝ) : ℝ :=
  if l.length ≤ 1 then 0
  else
    let n : ℝ := l.length
    let m := l.sum / n
    (l.map (fun x => (x - m) ^ 2)).sum / (n - 1)

/-- `calculate_factor_scores`: the composite score, re-standardized
when the index is nonempty and the composite's (skip-NaN) std is
positive. -/
noncomputable def calculate_factor_scores (cs : CrossSection) (w : List (String × ℚ)) :
    Ticker → Option ℝ :=
  let score := compositeScore cs w
  let present := cs.tickers.filterMap score
  let m := present.sum / (present.length : ℝ)
  let sd := Real.sqrt (sampleVarR present)
  if 0 < cs.tickers.length ∧ 0 < sd then
    fun t => (score t).map (fun s => (s - m) / sd)
  else score

/-! ### Concrete fixtures used by witnesses and counterexamples -/

/-- Factor panel: rows 1 and 2 in the index, both rows holding
`A ↦ 3, B ↦ 2, C ↦ 1` (only row 1 is ever read when evaluating
date 2). -/
def exF : DF :=
  { dates := [1, 2], tickers := ["A", "B", "C"],
    val := fun d t =>
      if d = 1 ∨ d = 2 then
        if t = "A" then some 3
        else if t = "B" then some 2
        else if t = "C" then some 1
        else none
      else none }

/-- Same factor data as `exF` but with date 2 absent from the index. -/
def exFnoD : DF :=
  { dates := [1], tickers := ["A", "B", "C"], val := exF.val }

/-- Return panel over dates 1, 2: on date 2,
`A ↦ 1/10, B ↦ 1/5, C ↦ 3/10`. -/
def exR : DF :=
  { dates := [1, 2], tickers := ["A", "B", "C"],
    val := fun d t =>
      if d = 2 then
        if t = "A" then some (1/10)
        else if t = "B" then some (1/5)
        else if t = "C" then some (3/10)
        else none
      else if d = 1 then some 0
      else none }

/-- Market caps all present but zero on row 1. -/
def exMzero : DF :=
  { dates := [1], tickers := ["A", "B", "C"],
    val := fun d t =>
      if d = 1 ∧ (t = "A" ∨ t = "B" ∨ t = "C") then some 0 else none }

/-- Empty market-cap panel (no rows at all). -/
def exMnone : DF := { dates := [], tickers := [], val := fun _ _ => none }

/-- Market caps `A ↦ 2, B ↦ 6` on row 1 (positive total 8). -/
def exMcap : DF :=
  { dates := [1], tickers := ["A", "B"],
    val := fun d t =>
      if d = 1 then
        if t = "A" then some 2 else if t = "B" then some 6 else none
      else none }

/-- Return panel for the significance tester: one ticker, 5 dates. -/
def sigR : DF :=
  { dates := [0, 1, 2, 3, 4], tickers := ["A"],
    val := fun _ t => if t = "A" then some (1/100) else none }

/-- Spread series for the significance tester: 5 dates, all present. -/
def sigF : SeriesQ :=
  { dates := [0, 1, 2, 3, 4], val := fun _ => some (1/50) }

/-- Two-factor cross section: `f1` has values `A ↦ 0, B ↦ 2`
(positive dispersion), `f2` is the constant column 5 (zero std). -/
def csEx : CrossSection :=
  { factors := ["f1", "f2"], tickers := ["A", "B"],
    val := fun f t =>
      if f = "f1" then
        if t = "A" then some 0 else if t = "B" then some 2 else none
      else if f = "f2" then
        if t = "A" ∨ t = "B" then some 5 else none
      else none }

/-- Weights mentioning only `f1`; `f2` is absent and must contribute
nothing. -/
def wEx : List (String × ℚ) := [("f1", 2)]

/-- A factor panel that agrees with `exF` on every date before 2 but
holds different values on the row of date 2 itself. -/
def exFalt : DF :=
  { dates := [1, 2], tickers := ["A", "B", "C"],
    val := fun d t =>
      if d = 1 then exF.val 1 t
      else if d = 2 ∧ t = "A" then some 100
      else none }

/-- Decidable equality for modelled Python-call outcomes, so concrete
runs can be checked by `decide`. -/
instance {ε α : Type} [DecidableEq ε] [DecidableEq α] : DecidableEq (Except ε α) :=
  fun a b =>
    match a, b with
    | .ok x, .ok y =>
      if h : x = y then .isTrue (by rw [h])
      else .isFalse (by intro hh; cases hh; exact h rfl)
    | .error x, .error y =>
      if h : x = y then .isTrue (by rw [h])
      else .isFalse (by intro hh; cases hh; exact h rfl)
    | .ok _, .error _ => .isFalse (by intro hh; cases hh)
    | .error _, .ok _ => .isFalse (by intro hh; cases hh)

/-! ## Theorems -/

/-! ### Return calculator: C4 and C5 -/

theorem pctAux_length (l : List ℚ) : ∀ a : ℚ, (pctAux a l).length = l.length := by
  induction l with
  | nil => intro a; rfl
  | cons x t ih => intro a; simp [pctAux, ih]

theorem pctAux_get (l : List ℚ) : ∀ (a : ℚ) (i : ℕ) (p q : ℚ),
    (a :: l)[i]? = some p → l[i]? = some q →
    (pctAux a l)[i]? = some (q / p - 1) := by
  induction l with
  | nil => intro a i p q _ h2; simp at h2
  | cons x t ih =>
    intro a i p q h1 h2
    cases i with
    | zero =>
      simp only [List.getElem?_cons_zero, Option.some.injEq] at h1 h2
      subst h1; subst h2
      simp [pctAux]
    | succ j =>
      simp only [List.getElem?_cons_succ] at h1 h2
      simpa [pctAux] using ih x j p q h1 h2

/-- C5 — for every non-empty price series (with the positive closes of
real price data, where exact and float division agree), the return
series `pct_change().fillna(0)` has the same length as the price
series, its first element is exactly `0`, and every later element is
the simple percentage change `(pᵢ - pᵢ₋₁) / pᵢ₋₁` of the adjusted
close from the previous date. -/
theorem claim5_return_series (ps : List ℚ) (hne : ps ≠ [])
    (hpos : ∀ p ∈ ps, 0 < p) :
    (pctReturns ps).length = ps.length ∧
    (pctReturns ps).head? = some 0 ∧
    ∀ i p q, ps[i]? = some p → ps[i + 1]? = some q →
      (pctReturns ps)[i + 1]? = some ((q - p) / p) := by
  obtain ⟨a, t, rfl⟩ := List.exists_cons_of_ne_nil hne
  refine ⟨by simp [pctReturns, pctAux_length], rfl, ?_⟩
  intro i p q h1 h2
  have hp : (0 : ℚ) < p := by
    have hmem : p ∈ a :: t := List.getElem?_mem h1
    exact hpos p hmem
  have h2' : t[i]? = some q := by simpa using h2
  have hget : (pctAux a t)[i]? = some (q / p - 1) := pctAux_get t a i p q h1 h2'
  have hval : q / p - 1 = (q - p) / p := by
    field_simp
  simp only [pctReturns, List.getElem?_cons_succ]
  rw [hget, hval]

/-- Witness for C5: the amended-free theorem applied to the spec's own
example series `[100, 102, 101, 105]`. -/
theorem claim5_return_series_applied :
    (pctReturns [(100 : ℚ), 102, 101, 105]).length =
      ([(100 : ℚ), 102, 101, 105] : List ℚ).length ∧
    (pctReturns [(100 : ℚ), 102, 101, 105]).head? = some 0 ∧
    (pctReturns [(100 : ℚ), 102, 101, 105])[1]? = some ((102 - 100) / 100) := by
  have h := claim5_return_series [(100 : ℚ), 102, 101, 105] (by decide)
    (by intro p hp; fin_cases hp <;> norm_num)
  exact ⟨h.1, h.2.1,
    h.2.2 0 100 102 (by with_unfolding_all decide) (by with_unfolding_all decide)⟩

/-- C4 (amended) — the return calculation never raises: a
single-observation price series yields the single return `0` (the
filled `NaN` of `pct_change`) and an empty series yields an empty
return series; no `InsufficientDataError` exists in the code. -/
theorem claim4_short_series (p : ℚ) :
    pctReturns [p] = [0] ∧ pctReturns ([] : List ℚ) = [] :=
  ⟨rfl, rfl⟩

/-- C4 counterexample — on the one-observation series `[100]`, which
the claim says must raise `InsufficientDataError`, the code
(`pct_change().fillna(0)`, a total computation with no exception
path) returns the series `[0]`. -/
theorem claim4_counterexample : pctReturns [(100 : ℚ)] = [0] := rfl

/-! ### Performance evaluator: C9 (max drawdown) -/

theorem runMaxAux_of_chain (l : List ℚ) :
    ∀ m, List.Chain (· ≤ ·) m l → runMaxAux m l = l := by
  induction l with
  | nil => intro m _; rfl
  | cons x t ih =>
    intro m hc
    rcases List.chain_cons.mp hc with ⟨hmx, hct⟩
    simp [runMaxAux, max_eq_right hmx, ih x hct]

theorem runningMax_of_chain (l : List ℚ) (h : l.Chain' (· ≤ ·)) :
    runningMax l = l := by
  cases l with
  | nil => rfl
  | cons x t =>
    simp only [runningMax]
    rw [runMaxAux_of_chain t x h]

theorem foldlMin_le (l : List ℚ) : ∀ m : ℚ,
    ∃ m2, l.foldl
        (fun acc x =>
          match acc with
          | none => some x
          | some m3 => some (min m3 x)) (some m) = some m2 ∧ m2 ≤ m := by
  induction l with
  | nil => intro m; exact ⟨m, rfl, le_refl m⟩
  | cons x t ih =>
    intro m
    obtain ⟨m2, he, hle⟩ := ih (min m x)
    exact ⟨m2, he, le_trans hle (min_le_left m x)⟩

theorem foldlMin_zero (l : List ℚ) (h : ∀ y ∈ l, y = 0) :
    l.foldl
        (fun acc x =>
          match acc with
          | none => some x
          | some m3 => some (min m3 x)) (some 0) = some 0 := by
  induction l with
  | nil => rfl
  | cons x t ih =>
    have hx : x = (0 : ℚ) := h x (List.mem_cons_self x t)
    subst hx
    simp only [List.foldl_cons, min_self]
    exact ih (fun y hy => h y (List.mem_cons_of_mem _ hy))

theorem cumReturns_head (x : ℚ) (t : List ℚ) :
    cumReturns (x :: t) = (1 + x) :: cumAux (1 + x) t := by
  simp [cumReturns, cumAux]

/-- C9 (amended) — for every non-empty return series whose first
return is not the total-loss value `-1` (so the cumulative path does
not start at zero and the drawdown column is not all-`NaN`), the
maximum drawdown `min((cum / cummax) - 1)` is a defined value `≤ 0`,
and it is exactly `0` whenever the cumulative-return path is
monotonically non-decreasing. -/
theorem claim9_drawdown (r : List ℚ) (hne : r ≠ [])
    (hh : r.head? ≠ some (-1)) :
    (∃ v, maxDrawdown r = some v ∧ v ≤ 0) ∧
    ((cumReturns r).Chain' (· ≤ ·) → maxDrawdown r = some 0) := by
  obtain ⟨x, t, rfl⟩ := List.exists_cons_of_ne_nil hne
  have hx : (1 : ℚ) + x ≠ 0 := by
    intro h0
    exact hh (by simp [List.head?]; linarith)
  constructor
  · -- head drawdown entry is `some 0`, so the skip-NaN min is ≤ 0
    have hdd : drawdownList (x :: t) =
        some ((1 + x) / (1 + x) - 1) ::
          List.zipWith (fun c m => if m = 0 then none else some (c / m - 1))
            (cumAux (1 + x) t) (runMaxAux (1 + x) (cumAux (1 + x) t)) := by
      simp [drawdownList, cumReturns_head, runningMax, hx]
    have hzero : (1 + x) / (1 + x) - 1 = 0 := by
      rw [div_self hx]; ring
    rw [maxDrawdown, hdd, hzero]
    simp only [skipnaMin, List.filterMap_cons, id]
    obtain ⟨m2, he, hle⟩ := foldlMin_le
      ((List.zipWith (fun c m => if m = 0 then none else some (c / m - 1))
        (cumAux (1 + x) t) (runMaxAux (1 + x) (cumAux (1 + x) t))).filterMap id) 0
    exact ⟨m2, he, hle⟩
  · -- monotone cumulative path: every defined drawdown entry is 0
    intro hchain
    have hrm : runningMax (cumReturns (x :: t)) = cumReturns (x :: t) :=
      runningMax_of_chain _ hchain
    have hdd : drawdownList (x :: t) =
        (cumReturns (x :: t)).map (fun c => if c = 0 then none else some (c / c - 1)) := by
      rw [drawdownList, hrm, List.zipWith_same]
    have hall : ∀ y ∈ (drawdownList (x :: t)).filterMap id, y = 0 := by
      intro y hy
      rw [hdd] at hy
      obtain ⟨o, ho, hoy⟩ := List.mem_filterMap.mp hy
      obtain ⟨c, _, hco⟩ := List.mem_map.mp ho
      by_cases hc : c = 0
      · rw [if_pos hc] at hco; rw [← hco] at hoy; exact absurd hoy (by simp)
      · rw [if_neg hc] at hco
        rw [← hco] at hoy
        have : y = c / c - 1 := by simpa using hoy.symm
        rw [this, div_self hc]; ring
    have hhead : (drawdownList (x :: t)).filterMap id =
        0 :: ((List.zipWith (fun c m => if m = 0 then none else some (c / m - 1))
          (cumAux (1 + x) t) (runMaxAux (1 + x) (cumAux (1 + x) t))).filterMap id) := by
      have hdd2 : drawdownList (x :: t) =
          some ((1 + x) / (1 + x) - 1) ::
            List.zipWith (fun c m => if m = 0 then none else some (c / m - 1))
              (cumAux (1 + x) t) (runMaxAux (1 + x) (cumAux (1 + x) t)) := by
        simp [drawdownList, cumReturns_head, runningMax, hx]
      rw [hdd2]
      have hzero : (1 + x) / (1 + x) - 1 = 0 := by
        rw [div_self hx]; ring
      simp [hzero]
    rw [maxDrawdown, skipnaMin, hhead]
    apply foldlMin_zero
    intro y hy
    apply hall
    rw [hhead]
    exact List.mem_cons_of_mem _ hy

/-- C9 counterexample — on the one-element series `[-1]` (a −100%
return) the cumulative path is `[0]`, the drawdown entry is the float
`0/0 = NaN`, and `drawdown.min()` is `NaN` (modelled `none`): not a
number `≤ 0`.  On `[-1, 0]` the cumulative path `[0, 0]` is
monotonically non-decreasing, yet the max drawdown is again `NaN`,
not `0`. -/
theorem claim9_counterexample :
    maxDrawdown [(-1 : ℚ)] = none ∧
    maxDrawdown [(-1 : ℚ), 0] = none ∧
    (cumReturns [(-1 : ℚ), 0]).Chain' (· ≤ ·) := by
  refine ⟨by with_unfolding_all decide, by with_unfolding_all decide, ?_⟩
  have hc : cumReturns [(-1 : ℚ), 0] = [0, 0] := by with_unfolding_all decide
  rw [hc]
  simp [List.chain'_cons]

/-- Witness for C9: the amended theorem applied to the concrete series
`[0, 1/10]`, whose cumulative path `[1, 11/10]` is non-decreasing. -/
theorem claim9_drawdown_applied :
    maxDrawdown [(0 : ℚ), 1/10] = some 0 :=
  (claim9_drawdown [(0 : ℚ), 1/10] (by decide) (by decide)).2 (by
    have hc : cumReturns [(0 : ℚ), 1/10] = [1, 11/10] := by with_unfolding_all decide
    rw [hc]
    norm_num [List.chain'_cons])

/-! ### Performance evaluator: C8 (Sharpe ratio) -/

theorem annVol_nonneg (r : List ℚ) : 0 ≤ annVol r :=
  mul_nonneg (Real.sqrt_nonneg _) (Real.sqrt_nonneg _)

theorem annVol_zero_of_var_zero (r : List ℚ) (h : sampleVar r = 0) :
    annVol r = 0 := by
  rw [annVol, h]
  simp

theorem annVol_pos_of_var_pos (r : List ℚ) (h : 0 < sampleVar r) :
    0 < annVol r := by
  apply mul_pos
  · exact Real.sqrt_pos.mpr (by exact_mod_cast h)
  · exact Real.sqrt_pos.mpr (by norm_num)

theorem annVol_01_pos : 0 < annVol [(0 : ℚ), 1] := by
  apply annVol_pos_of_var_pos
  have : sampleVar [(0 : ℚ), 1] = 1/2 := by with_unfolding_all decide
  rw [this]
  norm_num

/-- C8 (amended) — for every return series: when the annualized
volatility is positive, the factor evaluator's Sharpe ratio is
`(annualized_return - 0.02) / annualized_volatility`, while the
strategy evaluator's Sharpe ratio is
`annualized_return / annualized_volatility` with no risk-free-rate
subtraction; when the volatility is `0`, both are exactly `0` (not
`NaN`/`inf`); and the volatility is never negative, so these two
cases are exhaustive. -/
theorem claim8_sharpe_cases (r : List ℚ) :
    (0 < annVol r →
      sharpeOf r = (annReturn r - 0.02) / annVol r ∧
      stratSharpeOf r = stratAnnReturn r / annVol r) ∧
    (annVol r = 0 → sharpeOf r = 0 ∧ stratSharpeOf r = 0) ∧
    0 ≤ annVol r := by
  refine ⟨fun h => ⟨if_pos h, if_pos h⟩, fun h => ⟨?_, ?_⟩, annVol_nonneg r⟩
  · rw [sharpeOf, h]
    simp
  · rw [stratSharpeOf, h]
    simp

/-- Witness for C8: the amended theorem applied to the constant series
`[0, 0]` (zero volatility, Sharpe 0 on both paths) and to `[0, 1]`
(positive volatility, both formula cases). -/
theorem claim8_sharpe_cases_applied :
    (annVol [(0 : ℚ), 0] = 0 ∧ sharpeOf [(0 : ℚ), 0] = 0 ∧
      stratSharpeOf [(0 : ℚ), 0] = 0) ∧
    (sharpeOf [(0 : ℚ), 1] = (annReturn [(0 : ℚ), 1] - 0.02) / annVol [(0 : ℚ), 1] ∧
      stratSharpeOf [(0 : ℚ), 1] = stratAnnReturn [(0 : ℚ), 1] / annVol [(0 : ℚ), 1]) := by
  have h0 : annVol [(0 : ℚ), 0] = 0 := by
    apply annVol_zero_of_var_zero
    with_unfolding_all decide
  refine ⟨⟨h0, ((claim8_sharpe_cases [(0 : ℚ), 0]).2.1 h0).1,
    ((claim8_sharpe_cases [(0 : ℚ), 0]).2.1 h0).2⟩, ?_⟩
  exact (claim8_sharpe_cases [(0 : ℚ), 1]).1 annVol_01_pos

/-- C8 counterexample — the claim asserts the
`(annualized_return - 0.02) / volatility` formula also for a strategy
return series, but `calculate_performance` computes
`annualized_return / volatility` without subtracting the risk-free
rate: on the concrete series `[0, 1]` (positive volatility) the two
differ by `0.02 / volatility ≠ 0`. -/
theorem claim8_counterexample :
    stratSharpeOf [(0 : ℚ), 1] ≠
      (stratAnnReturn [(0 : ℚ), 1] - 0.02) / annVol [(0 : ℚ), 1] := by
  have hv := annVol_01_pos
  have hne : annVol [(0 : ℚ), 1] ≠ 0 := ne_of_gt hv
  rw [stratSharpeOf, if_pos hv]
  intro heq
  rw [div_eq_div_iff hne hne] at heq
  have := mul_right_cancel₀ hne heq
  linarith

/-! ### Significance tester: C6 -/

theorem lookup_test_factor_aux (R : DF) (f : SeriesQ) (t : Ticker)
    (h : (alignedDates R f t).length < 30) (l : List Ticker) :
    (l.filterMap (fun t2 =>
      let a := alignedDates R f t2
      if a.length < 30 then none
      else some (t2, olsFit (a.map (fun d => ((f.val d).getD 0, (R.val d t2).getD 0)))))).lookup t
      = none := by
  induction l with
  | nil => rfl
  | cons x xs ih =>
    by_cases hx : (alignedDates R f x).length < 30
    · simpa [List.filterMap_cons, hx] using ih
    · have hxt : (t == x) = false := by
        apply beq_false_of_ne
        intro he
        exact hx (he ▸ h)
      simp [List.filterMap_cons, hx, List.lookup, hxt, ih]

/-- C6 — for every asset whose return series has fewer than 30
date-aligned observations with the spread-return series, `test_factor`
skips the asset (`continue`), so the result mapping has no entry for
it at all. -/
theorem claim6_omitted_when_short (R : DF) (f : SeriesQ) (t : Ticker)
    (h : (alignedDates R f t).length < 30) :
    (test_factor R f).lookup t = none :=
  lookup_test_factor_aux R f t h R.tickers

/-- Witness for C6: ticker `A` has only 5 aligned observations in the
`sigR`/`sigF` fixture, so it is absent from the output mapping. -/
theorem claim6_omitted_when_short_applied :
    (test_factor sigR sigF).lookup "A" = none :=
  claim6_omitted_when_short sigR sigF "A" (by with_unfolding_all decide)

/-! ### Portfolio constructor: C3 (no entry validation of n_groups) -/

theorem insertDesc_length (x : Ticker × ℚ) (l : List (Ticker × ℚ)) :
    (insertDesc x l).length = l.length + 1 := by
  induction l with
  | nil => rfl
  | cons y ys ih =>
    rw [insertDesc]
    split
    · rfl
    · simp [ih]

theorem sortDesc_length (l : List (Ticker × ℚ)) :
    (sortDesc l).length = l.length := by
  induction l with
  | nil => rfl
  | cons x xs ih =>
    simp only [sortDesc, List.foldr_cons] at ih ⊢
    rw [insertDesc_length, ih]
    rfl

theorem latestPrior_mem_lt (F : DF) (d pd : Date)
    (h : latestPrior F d = some pd) : pd ∈ F.dates ∧ pd < d := by
  have hmem : pd ∈ F.dates.filter (fun x => x < d) :=
    List.mem_of_mem_getLast? h
  have := List.mem_filter.mp hmem
  exact ⟨this.1, by simpa using this.2⟩

theorem isOk_map {ε α β : Type} (e : Except ε α) (f : α → β) :
    (e.map f).isOk = e.isOk := by
  cases e <;> rfl

theorem mapM_loop_ok {ε α β : Type} (g : α → Except ε β) (l : List α)
    (h : ∀ a ∈ l, (g a).isOk = true) :
    ∀ acc, (List.mapM.loop g l acc).isOk = true := by
  induction l with
  | nil => intro acc; rfl
  | cons x xs ih =>
    intro acc
    have hx := h x (List.mem_cons_self x xs)
    cases hg : g x with
    | ok b =>
      simp only [List.mapM.loop, hg]
      exact ih (fun a ha => h a (List.mem_cons_of_mem _ ha)) (b :: acc)
    | error e => rw [hg] at hx; exact Bool.noConfusion hx

theorem mapM_eq_loop {ε α β : Type} (g : α → Except ε β) (l : List α) :
    l.mapM g = List.mapM.loop g l [] := rfl

theorem processDate_isOk (F R M : DF) (n : ℤ) (d : Date) (hn : n ≠ 0)
    (hrow : ∀ pd ∈ F.dates, factorRow F pd ≠ []) :
    (processDate F R M n d).isOk = true := by
  by_cases hA : (d ∉ F.dates ∨ R.dates.head? = some d)
  · rw [processDate, if_pos hA]; rfl
  · rw [processDate, if_neg hA]
    cases hl : latestPrior F d with
    | none => rfl
    | some prev =>
      dsimp only
      by_cases hlen : ((factorRow F prev).length : ℤ) < n
      · rw [if_pos hlen]; rfl
      · rw [if_neg hlen, if_neg hn]
        set L := sortDesc (factorRow F prev) with hL
        set gs := (max 1 (Int.fdiv (L.length : ℤ) n)).toNat with hgs
        have hfne : factorRow F prev ≠ [] :=
          hrow prev (latestPrior_mem_lt F d prev hl).1
        have hLpos : 0 < L.length := by
          rw [hL, sortDesc_length]
          exact List.length_pos.mpr hfne
        have hgs1 : 1 ≤ gs := by
          rw [hgs]
          have h1 : (1 : ℤ) ≤ max 1 (Int.fdiv (L.length : ℤ) n) := le_max_left _ _
          exact_mod_cast Int.toNat_le_toNat h1
        have hhi : ((L.take gs).map Prod.fst).isEmpty = false := by
          rw [List.isEmpty_eq_false_iff_exists_mem]
          refine ⟨(L.get ⟨0, hLpos⟩).1, ?_⟩
          apply List.mem_map_of_mem
          rw [List.mem_take_iff_getElem]
          exact ⟨0, by omega, by simp⟩
        have hlo : ((L.drop (L.length - gs)).map Prod.fst).isEmpty = false := by
          rw [List.isEmpty_eq_false_iff_exists_mem]
          have hd : L.drop (L.length - gs) ≠ [] := by
            intro hnil
            rw [List.drop_eq_nil_iff] at hnil
            omega
          obtain ⟨y, hy⟩ := List.exists_mem_of_ne_nil _ hd
          exact ⟨y.1, List.mem_map_of_mem _ hy⟩
        rw [if_neg ?hc]
        · rfl
        case hc =>
          intro hor
          rcases hor with h1 | h1
          · rw [hhi] at h1; exact Bool.noConfusion h1
          · rw [hlo] at h1; exact Bool.noConfusion h1

/-- C3 (amended) — `construct_portfolios` performs no validation of
`n_groups` at entry and never raises a `ConfigurationError` (no such
check or exception class exists in the code).  For every `n_groups ≠ 0`
whose factor panel has at least one non-missing value in each row, the
call completes normally; `n_groups ≤ 0` included: a negative value
merely clamps the group size to 1 via `max(1, len // n_groups)`.  The
only exception reachable with `n_groups ≤ 0` is a `ZeroDivisionError`
from `len(sorted_stocks) // n_groups`, raised mid-loop at the first
processed date when `n_groups = 0` — not at entry. -/
theorem claim3_no_entry_validation (F R M : DF) (n : ℤ) (hn : n ≠ 0)
    (hrow : ∀ pd ∈ F.dates, factorRow F pd ≠ []) :
    (construct_portfolios F R M n).isOk = true := by
  rw [construct_portfolios, mapM_eq_loop]
  apply mapM_loop_ok
  intro d _
  rw [isOk_map]
  exact processDate_isOk F R M n d hn hrow

/-- Witness for C3: the amended theorem applied to the fixture run with
`n_groups = -1`. -/
theorem claim3_no_entry_validation_applied :
    (construct_portfolios exF exR exMnone (-1)).isOk = true :=
  claim3_no_entry_validation exF exR exMnone (-1) (by decide)
    (by intro pd hpd; fin_cases hpd <;> with_unfolding_all decide)

/-- C3 counterexample — called with `n_groups = -1 ≤ 0` the code
raises nothing at all and returns a portfolio frame (here the second
date is processed with group size 1); with `n_groups = 0` it raises
`ZeroDivisionError` from the group-size division at the first
processed date, mid-loop — in neither case the `ConfigurationError`
at entry that the claim requires. -/
theorem claim3_counterexample :
    construct_portfolios exF exR exMnone (-1) =
      .ok [(1, 0, 0, 0), (2, 1/10, 3/10, -1/5)] ∧
    construct_portfolios exF exR exMnone 0 = .error "ZeroDivisionError" := by
  constructor
  · with_unfolding_all decide
  · with_unfolding_all decide

/-! ### Portfolio constructor: C7 (no look-ahead) -/

theorem filterMap_congr_mem {α β : Type} (l : List α) (f g : α → Option β)
    (h : ∀ a ∈ l, f a = g a) : l.filterMap f = l.filterMap g := by
  induction l with
  | nil => rfl
  | cons x xs ih =>
    rw [List.filterMap_cons, List.filterMap_cons, h x (List.mem_cons_self x xs),
      ih (fun a ha => h a (List.mem_cons_of_mem _ ha))]

/-- C7 — the portfolio return computed on an evaluation date `d` reads
factor values only from the latest factor-panel date strictly before
`d`: the chosen prior date always satisfies `prev < d`, and two factor
panels with the same index and columns that agree on all rows strictly
before `d` produce identical outcomes on `d` (so no factor value on a
row `>= d` is ever read). -/
theorem claim7_no_lookahead (F F' R M : DF) (n : ℤ) (d : Date)
    (hdates : F.dates = F'.dates) (hticks : F.tickers = F'.tickers)
    (hval : ∀ pd ∈ F.dates, pd < d → ∀ t ∈ F.tickers, F.val pd t = F'.val pd t) :
    processDate F R M n d = processDate F' R M n d ∧
    ∀ pd, latestPrior F d = some pd → pd < d := by
  have hlp : latestPrior F d = latestPrior F' d := by
    rw [latestPrior, latestPrior, hdates]
  refine ⟨?_, fun pd h => (latestPrior_mem_lt F d pd h).2⟩
  rw [processDate, processDate, hdates, hlp]
  cases hl : latestPrior F' d with
  | none => rfl
  | some prev =>
    have hprev := latestPrior_mem_lt F d prev (by rw [hlp]; exact hl)
    have hrow : factorRow F prev = factorRow F' prev := by
      rw [factorRow, factorRow, hticks]
      apply filterMap_congr_mem
      intro t ht
      rw [hval prev hprev.1 hprev.2 t (by rw [hticks]; exact ht)]
    dsimp only
    rw [hrow]

/-- Witness for C7: `exF` and `exFalt` share index and columns and
agree before date 2 but differ on the row of date 2; the evaluation of
date 2 cannot tell them apart. -/
theorem claim7_no_lookahead_applied :
    processDate exF exR exMnone 3 2 = processDate exFalt exR exMnone 3 2 :=
  (claim7_no_lookahead exF exFalt exR exMnone 3 2 (by decide) (by decide)
    (by
      intro pd hpd
      fin_cases hpd
      · intro _ t ht
        fin_cases ht <;> with_unfolding_all decide
      · intro h
        exact absurd h (lt_irrefl 2))).1

/-! ### Portfolio constructor: C2 (skip conditions) -/

theorem sorted_getLast?_le : ∀ (l : List Date), List.Sorted (· < ·) l →
    ∀ z, l.getLast? = some z → ∀ y ∈ l, y ≤ z := by
  intro l
  induction l with
  | nil => intro _ z hz; simp at hz
  | cons x xs ih =>
    intro hs z hz y hy
    cases xs with
    | nil =>
      have hx : x = z := by simpa using hz
      have hyx : y = x := by simpa using hy
      rw [hyx, hx]
    | cons b bs =>
      rw [List.getLast?_cons_cons] at hz
      rcases List.mem_cons.mp hy with rfl | hy2
      · have hzmem : z ∈ b :: bs := List.mem_of_mem_getLast? hz
        exact le_of_lt ((List.pairwise_cons.mp hs).1 z hzmem)
      · exact ih (List.Pairwise.of_cons hs) z hz y hy2

theorem latestPrior_is_max (F : DF) (d pd : Date)
    (hsort : List.Sorted (· < ·) F.dates)
    (h : latestPrior F d = some pd) : ∀ q ∈ F.dates, q < d → q ≤ pd := by
  intro q hq hlt
  have hsf : List.Sorted (· < ·) (F.dates.filter (fun x => x < d)) :=
    List.Pairwise.filter _ hsort
  have hqf : q ∈ F.dates.filter (fun x => x < d) :=
    List.mem_filter.mpr ⟨hq, by simpa using hlt⟩
  exact sorted_getLast?_le _ hsf pd h q hqf

theorem latestPrior_none_no_prior (F : DF) (d : Date)
    (h : latestPrior F d = none) : ∀ q ∈ F.dates, ¬ q < d := by
  intro q hq hlt
  have hfil : F.dates.filter (fun x => x < d) = [] := by
    rw [latestPrior] at h
    exact List.getLast?_eq_none_iff.mp h
  have hqf : q ∈ F.dates.filter (fun x => x < d) :=
    List.mem_filter.mpr ⟨hq, by simpa using hlt⟩
  rw [hfil] at hqf
  cases hqf

theorem groups_nonempty (L : List (Ticker × ℚ)) (n : ℤ) (hL : 0 < L.length) :
    ((L.take (max 1 (Int.fdiv (L.length : ℤ) n)).toNat).map Prod.fst).isEmpty = false ∧
    ((L.drop (L.length - (max 1 (Int.fdiv (L.length : ℤ) n)).toNat)).map Prod.fst).isEmpty = false := by
  have hgs1 : 1 ≤ (max 1 (Int.fdiv (L.length : ℤ) n)).toNat := by
    have h1 : (1 : ℤ) ≤ max 1 (Int.fdiv (L.length : ℤ) n) := le_max_left _ _
    exact_mod_cast Int.toNat_le_toNat h1
  constructor
  · rw [List.isEmpty_eq_false_iff_exists_mem]
    refine ⟨(L.get ⟨0, hL⟩).1, ?_⟩
    apply List.mem_map_of_mem
    rw [List.mem_take_iff_getElem]
    exact ⟨0, by omega, by simp⟩
  · rw [List.isEmpty_eq_false_iff_exists_mem]
    have hd : L.drop (L.length - (max 1 (Int.fdiv (L.length : ℤ) n)).toNat) ≠ [] := by
      intro hnil
      rw [List.drop_eq_nil_iff] at hnil
      omega
    obtain ⟨y, hy⟩ := List.exists_mem_of_ne_nil _ hd
    exact ⟨y.1, List.mem_map_of_mem _ hy⟩

/-- C2 (amended) — for an evaluation date `d` of the return index and
a sorted factor-panel index, `d` is computed from the ranked groups
(not skipped) exactly when: `d` is not the first return date, **`d` is
itself a date of the factor-panel index** (the extra condition the
claim omits), some factor-panel date lies strictly before `d`, and at
least `n_groups` assets have non-missing factor values on the latest
such prior date.  No other condition causes `d` to be skipped. -/
theorem claim2_processed_iff (F R M : DF) (n : ℤ) (d : Date)
    (hn : 0 < n) (hsort : List.Sorted (· < ·) F.dates) (_hd : d ∈ R.dates) :
    processedOn F R M n d = true ↔
      (R.dates.head? ≠ some d ∧ d ∈ F.dates ∧
        ∃ pd, pd ∈ F.dates ∧ pd < d ∧ (∀ q ∈ F.dates, q < d → q ≤ pd) ∧
          n ≤ ((factorRow F pd).length : ℤ)) := by
  unfold processedOn
  by_cases hA : (d ∉ F.dates ∨ R.dates.head? = some d)
  · rw [processDate, if_pos hA]
    dsimp only
    constructor
    · intro h; exact Bool.noConfusion h
    · rintro ⟨h1, h2, -⟩
      rcases hA with hA | hA
      · exact absurd h2 hA
      · exact absurd hA h1
  · rw [processDate, if_neg hA]
    push_neg at hA
    obtain ⟨hdF, hhead⟩ := hA
    cases hl : latestPrior F d with
    | none =>
      dsimp only
      constructor
      · intro h; exact Bool.noConfusion h
      · rintro ⟨-, -, pd, hm, hlt, -, -⟩
        exact absurd hlt (latestPrior_none_no_prior F d hl pd hm)
    | some prev =>
      dsimp only
      have hprev := latestPrior_mem_lt F d prev hl
      have hmax := latestPrior_is_max F d prev hsort hl
      by_cases hlen : ((factorRow F prev).length : ℤ) < n
      · rw [if_pos hlen]
        dsimp only
        constructor
        · intro h; exact Bool.noConfusion h
        · rintro ⟨-, -, pd, hm, hlt, hmax2, hcnt⟩
          have hpe : pd = prev :=
            le_antisymm (hmax pd hm hlt) (hmax2 prev hprev.1 hprev.2)
          rw [hpe] at hcnt
          omega
      · rw [if_neg hlen, if_neg (by omega : ¬ n = 0)]
        have hfpos : 0 < (factorRow F prev).length := by
          by_contra hc
          push_neg at hc
          interval_cases hfr : (factorRow F prev).length
          omega
        have hg := groups_nonempty (sortDesc (factorRow F prev)) n
          (by rw [sortDesc_length]; exact hfpos)
        rw [if_neg ?hc]
        · dsimp only
          constructor
          · intro _
            exact ⟨hhead, hdF, prev, hprev.1, hprev.2, hmax, by omega⟩
          · intro _; rfl
        case hc =>
          intro hor
          rcases hor with h1 | h1
          · rw [hg.1] at h1; exact Bool.noConfusion h1
          · rw [hg.2] at h1; exact Bool.noConfusion h1

/-- Witness for C2: on the fixture the date 2 meets all four amended
conditions and is indeed computed. -/
theorem claim2_processed_iff_applied :
    processedOn exF exR exMnone 3 2 = true :=
  (claim2_processed_iff exF exR exMnone 3 2 (by decide) (by decide)
      (by decide)).mpr
    ⟨by decide, by decide, 1, by decide, by decide, by decide,
      by with_unfolding_all decide⟩

/-- C2 counterexample — with the factor panel `exFnoD` (same data,
but date 2 missing from the panel index), every condition of the claim
holds for `d = 2`: it is not the first return date, date 1 is a prior
factor date (the latest one), and 3 assets have non-missing values
there — yet the code skips `d = 2` because of the extra
`date not in factor_df.index` test. -/
theorem claim2_counterexample :
    processedOn exFnoD exR exMnone 3 2 = false ∧
    2 ∈ exR.dates ∧ exR.dates.head? ≠ some 2 ∧
    1 ∈ exFnoD.dates ∧ (1 : Date) < 2 ∧
    (∀ q ∈ exFnoD.dates, q < 2 → q ≤ 1) ∧
    (3 : ℤ) ≤ ((factorRow exFnoD 1).length : ℤ) := by
  refine ⟨?_, ?_, ?_, ?_, ?_, ?_, ?_⟩ <;> with_unfolding_all decide

/-! ### Portfolio constructor: C1 (group weighting) -/

theorem filter_isSome_isEmpty_false (M : DF) (prev : Date) (g : List Ticker)
    (hex : ∃ t ∈ g, (M.val prev t).isSome) :
    (g.filter (fun t => (M.val prev t).isSome)).isEmpty = false := by
  rw [List.isEmpty_eq_false_iff_exists_mem]
  obtain ⟨t, ht, hs⟩ := hex
  exact ⟨t, List.mem_filter.mpr ⟨ht, hs⟩⟩

theorem filter_isSome_isEmpty_true (M : DF) (prev : Date) (g : List Ticker)
    (hall : ∀ t ∈ g, M.val prev t = none) :
    (g.filter (fun t => (M.val prev t).isSome)).isEmpty = true := by
  rw [List.isEmpty_iff, List.filter_eq_nil_iff]
  intro t ht
  rw [hall t ht]
  simp

theorem sum_filterMap_of_isSome (g : List Ticker) (f : Ticker → Option ℚ)
    (h : ∀ t ∈ g, (f t).isSome) :
    (g.filterMap f).sum = (g.map (fun t => (f t).getD 0)).sum := by
  induction g with
  | nil => rfl
  | cons x xs ih =>
    obtain ⟨v, hv⟩ := Option.isSome_iff_exists.mp (h x (List.mem_cons_self x xs))
    rw [List.filterMap_cons, hv, List.map_cons, hv, List.sum_cons, List.sum_cons,
      Option.getD_some, ih (fun t ht => h t (List.mem_cons_of_mem _ ht))]

theorem sum_map_mul_left_q (g : List Ticker) (a : ℚ) (f : Ticker → ℚ) :
    (g.map (fun t => a * f t)).sum = a * (g.map f).sum := by
  induction g with
  | nil => simp
  | cons x xs ih => simp [ih, mul_add]

/-- C1 (amended) — per group, with the market-cap row present at the
prior date: (a) if at least one member's cap is present and the
present caps sum to a positive total, each member with cap `c` gets
weight `c / total` and each member with a missing cap gets no weight
(`NaN`); (b) if at least one cap is present but every member's cap is
zero or missing — the case the claim assigns weight `1/group_size` —
every member's weight is instead the float `0/0 = NaN` and the group
return degenerates to the skip-NaN sum `0`; (c) only when the row is
absent or every member's cap is missing does each member get exactly
`1/group_size`, making the group return the equal-weighted average. -/
theorem claim1_group_weighting (M R : DF) (prev d : Date) (g : List Ticker) :
    ((prev ∈ M.dates) → (∃ t ∈ g, (M.val prev t).isSome) →
      0 < capTotal M prev g →
      (∀ t, t ∈ g → ∀ c, M.val prev t = some c →
        groupWeights M prev g t = some (c / capTotal M prev g)) ∧
      (∀ t, t ∈ g → M.val prev t = none → groupWeights M prev g t = none)) ∧
    ((prev ∈ M.dates) → (∃ t ∈ g, (M.val prev t).isSome) →
      (∀ t ∈ g, M.val prev t = none ∨ M.val prev t = some 0) →
      (∀ t ∈ g, groupWeights M prev g t = none) ∧
      weightedReturn R d g (groupWeights M prev g) = 0) ∧
    ((prev ∉ M.dates ∨ ∀ t ∈ g, M.val prev t = none) →
      (∀ t ∈ g, groupWeights M prev g t = some (1 / (g.length : ℚ))) ∧
      ((∀ t ∈ g, (R.val d t).isSome) →
        weightedReturn R d g (groupWeights M prev g) =
          (g.filterMap (fun t => R.val d t)).sum / (g.length : ℚ))) := by
  refine ⟨?_, ?_, ?_⟩
  · intro hm hex htot
    have hne : ¬((g.filter (fun t => (M.val prev t).isSome)).isEmpty = true) := by
      rw [filter_isSome_isEmpty_false M prev g hex]
      exact Bool.false_ne_true
    have hW : groupWeights M prev g = fun t => (M.val prev t).bind
        (fun v => if capTotal M prev g = 0 then none
          else some (v / capTotal M prev g)) := by
      rw [groupWeights, if_pos hm, if_neg hne]
    constructor
    · intro t _ c hc
      rw [hW]
      try dsimp only
      rw [hc, Option.some_bind, if_neg (ne_of_gt htot)]
    · intro t _ hc
      rw [hW]
      try dsimp only
      rw [hc]
      rfl
  · intro hm hex hall0
    have htot0 : capTotal M prev g = 0 := by
      rw [capTotal]
      apply List.sum_eq_zero
      intro x hx
      obtain ⟨t, ht, hmt⟩ := List.mem_filterMap.mp hx
      rcases hall0 t ht with h | h
      · rw [h] at hmt; cases hmt
      · rw [h] at hmt; cases hmt; rfl
    have hne : ¬((g.filter (fun t => (M.val prev t).isSome)).isEmpty = true) := by
      rw [filter_isSome_isEmpty_false M prev g hex]
      exact Bool.false_ne_true
    have hW : ∀ t ∈ g, groupWeights M prev g t = none := by
      intro t ht
      rw [groupWeights, if_pos hm, if_neg hne]
      try dsimp only
      rcases hall0 t ht with h | h
      · rw [h]; rfl
      · rw [h, Option.some_bind, if_pos htot0]
    refine ⟨hW, ?_⟩
    rw [weightedReturn]
    apply List.sum_eq_zero
    intro x hx
    obtain ⟨t, ht, hrt⟩ := List.mem_map.mp hx
    rw [hW t ht] at hrt
    exact hrt.symm
  · intro hcase
    have hW : ∀ t ∈ g, groupWeights M prev g t = some (1 / (g.length : ℚ)) := by
      intro t ht
      rcases hcase with hm | hall
      · rw [groupWeights, if_neg hm]
        try dsimp only
        rw [if_pos ht]
      · by_cases hm : prev ∈ M.dates
        · rw [groupWeights, if_pos hm,
            if_pos (filter_isSome_isEmpty_true M prev g hall)]
          try dsimp only
          rw [if_pos ht]
        · rw [groupWeights, if_neg hm]
          try dsimp only
          rw [if_pos ht]
    refine ⟨hW, ?_⟩
    intro hr
    rw [weightedReturn]
    have hmap : (g.map (fun t =>
        match groupWeights M prev g t, R.val d t with
        | some wv, some rv => wv * rv
        | _, _ => 0)) =
        g.map (fun t => (1 / (g.length : ℚ)) * ((R.val d t).getD 0)) := by
      apply List.map_congr_left
      intro t ht
      obtain ⟨rv, hrv⟩ := Option.isSome_iff_exists.mp (hr t ht)
      rw [hW t ht, hrv]
      simp
    rw [hmap, sum_map_mul_left_q, sum_filterMap_of_isSome g _ hr,
      one_div_mul_eq_div]

/-- Witness for C1: the amended theorem applied to concrete groups —
cap-weighted (`A ↦ 2, B ↦ 6`, total 8, weight of `A` is `1/4`),
all-zero caps (`NaN` weights, group return 0), and no market-cap row
(equal weight `1/2`). -/
theorem claim1_group_weighting_applied :
    groupWeights exMcap 1 ["A", "B"] "A" = some (1/4) ∧
    weightedReturn exR 2 ["A"] (groupWeights exMzero 1 ["A"]) = 0 ∧
    groupWeights exMnone 1 ["A", "B"] "B" = some (1/2) := by
  refine ⟨?_, ?_, ?_⟩
  · have h := ((claim1_group_weighting exMcap exR 1 2 ["A", "B"]).1
      (by decide) ⟨"A", by decide, by with_unfolding_all decide⟩
      (by with_unfolding_all decide)).1 "A" (by decide) 2
      (by with_unfolding_all decide)
    rw [h]
    have ht : capTotal exMcap 1 ["A", "B"] = 8 := by with_unfolding_all decide
    rw [ht]
    norm_num
  · exact ((claim1_group_weighting exMzero exR 1 2 ["A"]).2.1
      (by decide) ⟨"A", by decide, by with_unfolding_all decide⟩
      (by
        intro t ht
        fin_cases ht
        right
        with_unfolding_all decide)).2
  · have h := ((claim1_group_weighting exMnone exR 1 2 ["A", "B"]).2.2
      (Or.inl (by decide))).1 "B" (by decide)
    rw [h]
    norm_num

/-- C1 counterexample — all three members' caps are present but zero
(`exMzero`): the claim requires equal weights `1/group_size` (which on
this data would produce the returns `(1/10, 3/10, -1/5)`, exactly what
the equal-weighted run with no market-cap row produces), but the code
instead computes `0/0 = NaN` weights, and the skip-NaN sum turns every
group return into `0`. -/
theorem claim1_counterexample :
    processDate exF exR exMzero 3 2 = .ok (some (0, 0, 0)) ∧
    processDate exF exR exMnone 3 2 = .ok (some (1/10, 3/10, -1/5)) ∧
    groupWeights exMzero 1 ["A"] "A" = none ∧
    exR.val 2 "A" = some (1/10) := by
  refine ⟨?_, ?_, ?_, ?_⟩ <;> with_unfolding_all decide

/-! ### Factor score aggregator: C10 -/

theorem zscoreOf_isSome (cs : CrossSection) (f : String) (t : Ticker)
    (h : 0 < colStd cs f → (cs.val f t).isSome) :
    (zscoreOf cs f t).isSome := by
  rw [zscoreOf]
  by_cases hs : 0 < colStd cs f
  · rw [if_pos hs]
    obtain ⟨v, hv⟩ := Option.isSome_iff_exists.mp (h hs)
    rw [hv]
    rfl
  · rw [if_neg hs]
    rfl

theorem compositeScore_fold (cs : CrossSection) (w : List (String × ℚ)) (t : Ticker) :
    ∀ (l : List String) (a : ℝ),
    (∀ f ∈ l, (w.lookup f).isSome → (zscoreOf cs f t).isSome) →
    l.foldl (fun acc f =>
      match w.lookup f with
      | some wt => acc.bind (fun a2 => (zscoreOf cs f t).map (fun z => a2 + z * ((wt : ℚ) : ℝ)))
      | none => acc) (some a) =
    some (a + (l.map (fun f =>
      match w.lookup f with
      | some wt => ((zscoreOf cs f t).getD 0) * ((wt : ℚ) : ℝ)
      | none => 0)).sum) := by
  intro l
  induction l with
  | nil => intro a _; simp
  | cons x xs ih =>
    intro a h
    rw [List.foldl_cons, List.map_cons, List.sum_cons]
    cases hw : w.lookup x with
    | none =>
      simp only [hw]
      rw [ih a (fun f hf hwf => h f (List.mem_cons_of_mem _ hf) hwf)]
      norm_num
    | some wt =>
      have hz := h x (List.mem_cons_self x xs) (by rw [hw]; rfl)
      obtain ⟨z, hzv⟩ := Option.isSome_iff_exists.mp hz
      simp only [hw, hzv, Option.some_bind, Option.map_some, Option.map_some']
      rw [ih (a + z * ((wt : ℚ) : ℝ)) (fun f hf hwf => h f (List.mem_cons_of_mem _ hf) hwf)]
      simp only [Option.getD_some, Option.some.injEq]
      ring

/-- C10 — in `calculate_factor_scores`, provided the asset has a value
for every weighted factor with positive dispersion (so its running sum
is never poisoned by `NaN`), the composite score is exactly the sum
over the processed factors of (z-score × caller-supplied weight), with
a factor absent from the weights mapping contributing `0`; the z-score
column is the constant `0` whenever the factor's cross-sectional std
is `0`, and `(value - mean) / std` whenever the std is positive. -/
theorem claim10_composite (cs : CrossSection) (w : List (String × ℚ)) (t : Ticker)
    (hp : ∀ f ∈ cs.factors, (w.lookup f).isSome → 0 < colStd cs f → (cs.val f t).isSome) :
    compositeScore cs w t =
      some ((cs.factors.map (fun f =>
        match w.lookup f with
        | some wt => ((zscoreOf cs f t).getD 0) * ((wt : ℚ) : ℝ)
        | none => 0)).sum) ∧
    (∀ f, colStd cs f = 0 → zscoreOf cs f t = some 0) ∧
    (∀ f v, 0 < colStd cs f → cs.val f t = some v →
      zscoreOf cs f t =
        some ((((v : ℚ) : ℝ) - ((colMean cs f : ℚ) : ℝ)) / colStd cs f)) := by
  refine ⟨?_, ?_, ?_⟩
  · rw [compositeScore]
    rw [compositeScore_fold cs w t cs.factors 0
      (fun f hf hwf => zscoreOf_isSome cs f t (hp f hf hwf))]
    norm_num
  · intro f hs
    rw [zscoreOf, if_neg (by rw [hs]; exact lt_irrefl 0)]
  · intro f v hs hv
    rw [zscoreOf, if_pos hs, hv]
    rfl

/-- Witness for C10: the theorem applied to the two-factor fixture
(`f1` weighted 2 and dispersed, `f2` constant and absent from the
weights). -/
theorem claim10_composite_applied :
    compositeScore csEx wEx "A" =
      some ((csEx.factors.map (fun f =>
        match wEx.lookup f with
        | some wt => ((zscoreOf csEx f "A").getD 0) * ((wt : ℚ) : ℝ)
        | none => 0)).sum) :=
  (claim10_composite csEx wEx "A" (by
    intro f hf hw hs
    fin_cases hf
    · with_unfolding_all decide
    · with_unfolding_all decide)).1

end FactorModel
